import Mathlib

/-!
# Verification of a mark-and-sweep garbage collector

Shallow embedding of `src/gc.rs`: a tracing collector over one element type.
Memory addresses are modelled by natural-number ids; each allocation block
(`GcHeader` + payload) becomes a `Node` carrying the header fields `value_size`
and `marked` together with the payload `value`.  The intrusive singly linked
allocation list (`GcHeader.next` chain starting at `Gc_.values`) becomes a
`List`: the list head is the `values` head and each node's `next` is the node
after it.  The `Traverseable` capability (`traverse` invoking a callback once
per directly owned child) becomes a function `trav : V → List Nat` returning
the ids of the directly owned children of a payload.
-/

set_option autoImplicit false

namespace GcModel

/-- One allocation block: the `GcHeader` fields (`value_size`, `marked`)
plus the payload; `id` models the block's address, and the `next` chain is
represented by list order. -/
structure Node (V : Type) where
  id : Nat
  value_size : Nat
  marked : Bool
  value : V
  deriving DecidableEq, Repr

/-- The collector state `Gc_`: allocation list, live-candidate counter and
collection threshold. -/
structure Gc_ (V : Type) where
  values : List (Node V)
  allocated_objects : Nat
  collect_limit : Nat
  deriving DecidableEq, Repr

/-- `Gc::new`: empty list, counter 0, `collect_limit` 100. -/
def new (V : Type) : Gc_ V :=
  { values := [], allocated_objects := 0, collect_limit := 100 }

/-- `Gc_::alloc`: make a fresh block whose header has `next` = current list
head and `marked = false`, write the value into the payload, push it as the
new list head, bump the counter, return the handle (the payload's address,
modelled by the fresh id supplied by the caller). -/
def alloc {V : Type} (g : Gc_ V) (id value_size : Nat) (value : V) : Gc_ V × Nat :=
  ({ values := { id := id, value_size := value_size, marked := false, value := value } :: g.values,
     allocated_objects := g.allocated_objects + 1,
     collect_limit := g.collect_limit }, id)

/-- Dereferencing an id to its header, as `Gc_::gc_header` does via pointer
arithmetic from a payload address. -/
def findHeader {V : Type} (values : List (Node V)) (i : Nat) : Option (Node V) :=
  values.find? (fun n => n.id == i)

/-- `header.marked = true`: set the mark flag of the block at address `i`. -/
def setMarked {V : Type} (values : List (Node V)) (i : Nat) : List (Node V) :=
  values.map (fun n => if n.id == i then { n with marked := true } else n)

/-- Number of unmarked blocks; the termination measure of marking. -/
def unmarkedCount {V : Type} (values : List (Node V)) : Nat :=
  (values.filter (fun n => !n.marked)).length

theorem unmarkedCount_cons {V : Type} (n : Node V) (l : List (Node V)) :
    unmarkedCount (n :: l) = (if n.marked then 0 else 1) + unmarkedCount l := by
  cases h : n.marked <;> simp [unmarkedCount, h] <;> omega

theorem setMarked_cons {V : Type} (m : Node V) (l : List (Node V)) (i : Nat) :
    setMarked (m :: l) i =
      (if m.id = i then { m with marked := true } else m) :: setMarked l i := by
  by_cases h : m.id = i <;> simp [setMarked, h]

theorem findHeader_cons {V : Type} (m : Node V) (l : List (Node V)) (i : Nat) :
    findHeader (m :: l) i = if m.id = i then some m else findHeader l i := by
  by_cases h : m.id = i <;> simp [findHeader, List.find?_cons, h]

theorem unmarkedCount_setMarked_le {V : Type} (values : List (Node V)) (i : Nat) :
    unmarkedCount (setMarked values i) ≤ unmarkedCount values := by
  induction values with
  | nil => simp [setMarked, unmarkedCount]
  | cons m rest ih =>
    rw [setMarked_cons, unmarkedCount_cons, unmarkedCount_cons]
    by_cases h : m.id = i
    · cases hm : m.marked <;> simp [h, hm] <;> omega
    · cases hm : m.marked <;> simp [h, hm] <;> omega

theorem unmarkedCount_setMarked_lt {V : Type} (values : List (Node V)) (i : Nat)
    (n : Node V) (hfind : findHeader values i = some n) (hm : n.marked = false) :
    unmarkedCount (setMarked values i) < unmarkedCount values := by
  induction values with
  | nil => simp [findHeader] at hfind
  | cons m rest ih =>
    rw [findHeader_cons] at hfind
    by_cases h : m.id = i
    · have hmn : m = n := by simpa [h] using hfind
      subst hmn
      rw [setMarked_cons, unmarkedCount_cons, unmarkedCount_cons]
      have hle := unmarkedCount_setMarked_le rest i
      simp [h, hm]
      omega
    · rw [if_neg h] at hfind
      have := ih hfind
      rw [setMarked_cons, unmarkedCount_cons, unmarkedCount_cons, if_neg h]
      cases hm2 : m.marked <;> simp [hm2] <;> omega

/-- The mark phase's worklist form: `Gc_::mark` recursively marks a value and
its traversal children; the stack holds the ids still to mark (children are
pushed in front, preserving the recursive depth-first order).  A block whose
header is already marked is skipped — the cycle-termination rule. -/
def markStack {V : Type} (trav : V → List Nat) :
    List (Node V) → List Nat → List (Node V)
  | values, [] => values
  | values, i :: rest =>
    match hfind : findHeader values i with
    | none => markStack trav values rest
    | some n =>
      if hm : n.marked then markStack trav values rest
      else markStack trav (setMarked values i) (trav n.value ++ rest)
termination_by values stack => (unmarkedCount values, stack.length)
decreasing_by
  · exact Prod.Lex.right _ (Nat.lt_succ_self rest.length)
  · exact Prod.Lex.right _ (Nat.lt_succ_self rest.length)
  · exact Prod.Lex.left _ _
      (unmarkedCount_setMarked_lt values i n hfind (by simpa using hm))

/-- `Gc_::mark` on one value. -/
def mark {V : Type} (trav : V → List Nat) (values : List (Node V)) (i : Nat) :
    List (Node V) :=
  markStack trav values [i]

/-- `Gc_::sweep`'s single pass as a function of the current list suffix: the
loop examines the head of the suffix; an unmarked head is spliced out (the
scan continues from the node that replaced it) and counted as freed, a marked
head has its flag cleared and the scan advances; it stops at `None`.  Returns
the surviving list and the number of blocks freed (each free decrements
`allocated_objects` by the code's `Gc_::free`). -/
def sweepScan {V : Type} : List (Node V) → List (Node V) × Nat
  | [] => ([], 0)
  | n :: rest =>
    if n.marked then
      (({ n with marked := false } : Node V) :: (sweepScan rest).1, (sweepScan rest).2)
    else
      ((sweepScan rest).1, (sweepScan rest).2 + 1)

/-- `Gc_::sweep`: run the pass over the whole list and decrement
`allocated_objects` once per freed block. -/
def sweep {V : Type} (g : Gc_ V) : Gc_ V :=
  { g with
    values := (sweepScan g.values).1,
    allocated_objects := g.allocated_objects - (sweepScan g.values).2 }

/-- The sweep loop in explicit cursor form: `acc` is the already-retained
prefix (in reverse), the second argument is the suffix at the cursor, `frees`
the frees so far, `visited` the ids examined so far (in reverse).  Each
iteration examines exactly the suffix head, mirroring the in-place splice of
the source loop. -/
def sweepIter {V : Type} :
    List (Node V) → List (Node V) → Nat → List Nat → List (Node V) × Nat × List Nat
  | acc, [], frees, visited => (acc.reverse, frees, visited.reverse)
  | acc, n :: rest, frees, visited =>
    if n.marked then
      sweepIter (({ n with marked := false } : Node V) :: acc) rest frees (n.id :: visited)
    else
      sweepIter acc rest (frees + 1) (n.id :: visited)

/-- `Gc_::collect`: the root set's traversal marks each directly held value
(`roots.traverse(|v| self.mark(v))`), then sweep runs. -/
def collect {V : Type} (trav : V → List Nat) (g : Gc_ V) (roots : List Nat) : Gc_ V :=
  sweep { g with values := roots.foldl (mark trav) g.values }

/-- `Gc_::alloc_and_collect`: collect first when the counter has reached the
threshold, then allocate. -/
def alloc_and_collect {V : Type} (trav : V → List Nat) (g : Gc_ V) (roots : List Nat)
    (id value_size : Nat) (value : V) : Gc_ V × Nat :=
  if g.allocated_objects ≥ g.collect_limit then
    alloc (collect trav g roots) id value_size value
  else
    alloc g id value_size value

/-- `GcHeader::value_offset`, abstracted over the header size and the
platform's maximum primitive alignment:
`hs + ((max_align - (hs % max_align)) % max_align)`. -/
def value_offset (hs max_align : Nat) : Nat :=
  hs + ((max_align - hs % max_align) % max_align)

/-- The marking worklist together with the trace of the blocks it newly
marks, in order; its first component coincides with `markStack`. -/
def markStackT {V : Type} (trav : V → List Nat) :
    List (Node V) → List Nat → List (Node V) × List Nat
  | values, [] => (values, [])
  | values, i :: rest =>
    match hfind : findHeader values i with
    | none => markStackT trav values rest
    | some n =>
      if hm : n.marked then markStackT trav values rest
      else
        let r := markStackT trav (setMarked values i) (trav n.value ++ rest)
        (r.1, i :: r.2)
termination_by values stack => (unmarkedCount values, stack.length)
decreasing_by
  · exact Prod.Lex.right _ (Nat.lt_succ_self rest.length)
  · exact Prod.Lex.right _ (Nat.lt_succ_self rest.length)
  · exact Prod.Lex.left _ _
      (unmarkedCount_setMarked_lt values i n hfind (by simpa using hm))

/-- The object graph's edge relation: block `i` directly owns a reference to
block `j` when some node with id `i` lists `j` among its traversal children. -/
def Edge {V : Type} (trav : V → List Nat) (values : List (Node V)) (i j : Nat) : Prop :=
  ∃ n ∈ values, n.id = i ∧ j ∈ trav n.value

/-- Reachability in the object graph: the reflexive-transitive closure of
direct ownership. -/
def Reaches {V : Type} (trav : V → List Nat) (values : List (Node V)) : Nat → Nat → Prop :=
  Relation.ReflTransGen (Edge trav values)

/-- Some block at address `i` is in the list and marked. -/
def markedAt {V : Type} (values : List (Node V)) (i : Nat) : Prop :=
  ∃ n ∈ values, n.id = i ∧ n.marked = true

/-- Some block at address `i` is in the list. -/
def presentAt {V : Type} (values : List (Node V)) (i : Nat) : Prop :=
  ∃ n ∈ values, n.id = i

/-- Pointwise relation between a list and the same list after some marking:
ids, sizes and payloads are untouched and mark flags only ever go up. -/
def MarkLe {V : Type} (a b : Node V) : Prop :=
  a.id = b.id ∧ a.value_size = b.value_size ∧ a.value = b.value ∧
    (a.marked = true → b.marked = true)

/-- Everything about a block except its mark flag. -/
def strip {V : Type} (values : List (Node V)) : List (Nat × Nat × V) :=
  values.map (fun n => (n.id, n.value_size, n.value))

/-- The ids of the blocks in the allocation list, in list order. -/
def ids {V : Type} (values : List (Node V)) : List Nat :=
  values.map Node.id

/-- Concrete element type for worked examples: a payload is the list of ids
it owns, and traversal returns it unchanged. -/
def exTrav : List Nat → List Nat := fun v => v

/-- Example block A at address 0, owning a reference to address 1. -/
def exA : Node (List Nat) :=
  { id := 0, value_size := 8, marked := false, value := [1] }

/-- Example block B at address 1, owning a reference back to address 0. -/
def exB : Node (List Nat) :=
  { id := 1, value_size := 8, marked := false, value := [0] }

/-- Example collector holding the two-block reference cycle A ↔ B. -/
def exGc : Gc_ (List Nat) :=
  { values := [exA, exB], allocated_objects := 2, collect_limit := 100 }

section Lemmas

variable {V : Type}

theorem markStack_nil (trav : V → List Nat) (values : List (Node V)) :
    markStack trav values [] = values := by
  rw [markStack.eq_def]

theorem markStack_cons_none (trav : V → List Nat) (values : List (Node V))
    (i : Nat) (rest : List Nat) (h : findHeader values i = none) :
    markStack trav values (i :: rest) = markStack trav values rest := by
  rw [markStack.eq_def]
  repeat' split
  all_goals simp_all

theorem markStack_cons_marked (trav : V → List Nat) (values : List (Node V))
    (i : Nat) (rest : List Nat) (n : Node V) (h : findHeader values i = some n)
    (hm : n.marked = true) :
    markStack trav values (i :: rest) = markStack trav values rest := by
  rw [markStack.eq_def]
  repeat' split
  all_goals simp_all

theorem markStack_cons_unmarked (trav : V → List Nat) (values : List (Node V))
    (i : Nat) (rest : List Nat) (n : Node V) (h : findHeader values i = some n)
    (hm : n.marked = false) :
    markStack trav values (i :: rest) =
      markStack trav (setMarked values i) (trav n.value ++ rest) := by
  rw [markStack.eq_def]
  repeat' split
  all_goals simp_all

/-- Unfolding form of one marking step, suitable for computing with concrete
lists. -/
theorem markStack_cons (trav : V → List Nat) (values : List (Node V))
    (i : Nat) (rest : List Nat) :
    markStack trav values (i :: rest) =
      match findHeader values i with
      | none => markStack trav values rest
      | some n =>
        if n.marked then markStack trav values rest
        else markStack trav (setMarked values i) (trav n.value ++ rest) := by
  rcases h : findHeader values i with _ | n
  · rw [markStack_cons_none trav values i rest h]
  · by_cases hm : n.marked = true
    · rw [markStack_cons_marked trav values i rest n h hm]
      simp [hm]
    · rw [markStack_cons_unmarked trav values i rest n h (by simpa using hm)]
      simp [hm]

theorem markStackT_fst (trav : V → List Nat) (values : List (Node V)) (s : List Nat) :
    (markStackT trav values s).1 = markStack trav values s := by
  induction values, s using markStackT.induct trav with
  | case1 values => rw [markStackT.eq_def, markStack_nil]
  | case2 values i rest h ih =>
    rw [markStack_cons_none trav values i rest h, ← ih, markStackT.eq_def]
    repeat' split
    all_goals simp_all
  | case3 values i rest n h hm ih =>
    rw [markStack_cons_marked trav values i rest n h hm, ← ih, markStackT.eq_def]
    repeat' split
    all_goals simp_all
  | case4 values i rest n h hm ih =>
    rw [markStack_cons_unmarked trav values i rest n h (by simpa using hm), ← ih,
      markStackT.eq_def]
    repeat' split
    all_goals simp_all

theorem markStack_append (trav : V → List Nat) (values : List (Node V))
    (s t : List Nat) :
    markStack trav values (s ++ t) = markStack trav (markStack trav values s) t := by
  induction values, s using markStack.induct trav generalizing t with
  | case1 values => rw [List.nil_append, markStack_nil]
  | case2 values i rest h ih =>
    rw [List.cons_append, markStack_cons_none trav values i (rest ++ t) h,
      markStack_cons_none trav values i rest h, ih]
  | case3 values i rest n h hm ih =>
    rw [List.cons_append, markStack_cons_marked trav values i (rest ++ t) n h hm,
      markStack_cons_marked trav values i rest n h hm, ih]
  | case4 values i rest n h hm ih =>
    rw [List.cons_append, markStack_cons_unmarked trav values i (rest ++ t) n h
      (by simpa using hm), markStack_cons_unmarked trav values i rest n h
      (by simpa using hm), ← List.append_assoc, ih]

/-- Marking each root in turn, as `roots.traverse(|v| self.mark(v))` does,
is the worklist run on the whole root list. -/
theorem foldl_mark (trav : V → List Nat) (values : List (Node V)) (roots : List Nat) :
    roots.foldl (mark trav) values = markStack trav values roots := by
  induction roots generalizing values with
  | nil => rw [List.foldl_nil, markStack_nil]
  | cons r rs ih =>
    rw [List.foldl_cons, ih, mark, ← markStack_append]
    rfl

theorem strip_setMarked (values : List (Node V)) (i : Nat) :
    strip (setMarked values i) = strip values := by
  induction values with
  | nil => rfl
  | cons m rest ih =>
    rw [setMarked_cons]
    by_cases h : m.id = i <;> simp [strip, h] <;> simpa [strip] using ih

theorem strip_markStack (trav : V → List Nat) (values : List (Node V)) (s : List Nat) :
    strip (markStack trav values s) = strip values := by
  induction values, s using markStack.induct trav with
  | case1 values => rw [markStack_nil]
  | case2 values i rest h ih => rw [markStack_cons_none trav values i rest h, ih]
  | case3 values i rest n h hm ih => rw [markStack_cons_marked trav values i rest n h hm, ih]
  | case4 values i rest n h hm ih =>
    rw [markStack_cons_unmarked trav values i rest n h (by simpa using hm), ih,
      strip_setMarked]

theorem ids_eq_map_fst_strip (values : List (Node V)) :
    ids values = (strip values).map Prod.fst := by
  simp [ids, strip]

theorem ids_setMarked (values : List (Node V)) (i : Nat) :
    ids (setMarked values i) = ids values := by
  rw [ids_eq_map_fst_strip, strip_setMarked, ← ids_eq_map_fst_strip]

theorem ids_markStack (trav : V → List Nat) (values : List (Node V)) (s : List Nat) :
    ids (markStack trav values s) = ids values := by
  rw [ids_eq_map_fst_strip, strip_markStack, ← ids_eq_map_fst_strip]

theorem sweepScan_fst (l : List (Node V)) :
    (sweepScan l).1 =
      (l.filter (fun n => n.marked)).map
        (fun n => { n with marked := false }) := by
  induction l with
  | nil => rfl
  | cons n rest ih =>
    by_cases h : n.marked = true <;> simp [sweepScan, h, ih]

theorem sweepScan_snd (l : List (Node V)) :
    (sweepScan l).2 = (l.filter (fun n => !n.marked)).length := by
  induction l with
  | nil => rfl
  | cons n rest ih =>
    by_cases h : n.marked = true <;> simp [sweepScan, h, ih]

theorem sweepScan_length (l : List (Node V)) :
    ((sweepScan l).1).length + (sweepScan l).2 = l.length := by
  induction l with
  | nil => rfl
  | cons n rest ih =>
    by_cases h : n.marked = true <;> simp [sweepScan, h] <;> omega

theorem sweepScan_snd_le (l : List (Node V)) : (sweepScan l).2 ≤ l.length := by
  have := sweepScan_length l
  omega

/-- The cursor form of the sweep loop agrees with `sweepScan` and examines
every node of the suffix exactly once, in list order. -/
theorem sweepIter_spec (acc l : List (Node V)) (frees : Nat) (visited : List Nat) :
    sweepIter acc l frees visited =
      (acc.reverse ++ (sweepScan l).1, frees + (sweepScan l).2,
        visited.reverse ++ l.map Node.id) := by
  induction l generalizing acc frees visited with
  | nil => simp [sweepIter, sweepScan]
  | cons n rest ih =>
    by_cases h : n.marked = true <;>
      simp [sweepIter, sweepScan, h, ih] <;> omega

theorem forall₂_mem_left {α β : Type} {R : α → β → Prop} {a : List α} {b : List β}
    (h : List.Forall₂ R a b) {x : α} (hx : x ∈ a) : ∃ y ∈ b, R x y := by
  induction h with
  | nil => cases hx
  | cons hr ht ih =>
    rcases List.mem_cons.mp hx with rfl | hx2
    · exact ⟨_, List.mem_cons_self _ _, hr⟩
    · obtain ⟨y, hy, hxy⟩ := ih hx2
      exact ⟨y, List.mem_cons_of_mem _ hy, hxy⟩

theorem forall₂_mem_right {α β : Type} {R : α → β → Prop} {a : List α} {b : List β}
    (h : List.Forall₂ R a b) {y : β} (hy : y ∈ b) : ∃ x ∈ a, R x y := by
  induction h with
  | nil => cases hy
  | cons hr ht ih =>
    rcases List.mem_cons.mp hy with rfl | hy2
    · exact ⟨_, List.mem_cons_self _ _, hr⟩
    · obtain ⟨x, hx, hxy⟩ := ih hy2
      exact ⟨x, List.mem_cons_of_mem _ hx, hxy⟩

theorem markLe_refl (l : List (Node V)) : List.Forall₂ MarkLe l l := by
  induction l with
  | nil => exact List.Forall₂.nil
  | cons n rest ih => exact List.Forall₂.cons ⟨rfl, rfl, rfl, fun h => h⟩ ih

theorem markLe_trans {a b c : List (Node V)} (hab : List.Forall₂ MarkLe a b)
    (hbc : List.Forall₂ MarkLe b c) : List.Forall₂ MarkLe a c := by
  induction hab generalizing c with
  | nil => cases hbc; exact List.Forall₂.nil
  | cons hr ht ih =>
    cases hbc with
    | cons hr2 ht2 =>
      exact List.Forall₂.cons
        ⟨hr.1.trans hr2.1, hr.2.1.trans hr2.2.1, hr.2.2.1.trans hr2.2.2.1,
          fun x => hr2.2.2.2 (hr.2.2.2 x)⟩ (ih ht2)

theorem markLe_setMarked (values : List (Node V)) (i : Nat) :
    List.Forall₂ MarkLe values (setMarked values i) := by
  induction values with
  | nil => exact List.Forall₂.nil
  | cons m rest ih =>
    rw [setMarked_cons]
    refine List.Forall₂.cons ?_ ih
    by_cases h : m.id = i <;> simp [MarkLe, h]

theorem markLe_markStack (trav : V → List Nat) (values : List (Node V)) (s : List Nat) :
    List.Forall₂ MarkLe values (markStack trav values s) := by
  induction values, s using markStack.induct trav with
  | case1 values => rw [markStack_nil]; exact markLe_refl values
  | case2 values i rest h ih => rw [markStack_cons_none trav values i rest h]; exact ih
  | case3 values i rest n h hm ih =>
    rw [markStack_cons_marked trav values i rest n h hm]; exact ih
  | case4 values i rest n h hm ih =>
    rw [markStack_cons_unmarked trav values i rest n h (by simpa using hm)]
    exact markLe_trans (markLe_setMarked values i) ih

theorem markedAt_of_markLe {a b : List (Node V)} (h : List.Forall₂ MarkLe a b)
    {j : Nat} (hm : markedAt a j) : markedAt b j := by
  obtain ⟨n, hna, hid, hmk⟩ := hm
  obtain ⟨m, hmb, hrel⟩ := forall₂_mem_left h hna
  exact ⟨m, hmb, hrel.1 ▸ hid, hrel.2.2.2 hmk⟩

theorem presentAt_iff_mem_ids (values : List (Node V)) (j : Nat) :
    presentAt values j ↔ j ∈ ids values := by
  simp [presentAt, ids]

theorem presentAt_setMarked_iff (values : List (Node V)) (i j : Nat) :
    presentAt (setMarked values i) j ↔ presentAt values j := by
  rw [presentAt_iff_mem_ids, presentAt_iff_mem_ids, ids_setMarked]

theorem presentAt_markStack_iff (trav : V → List Nat) (values : List (Node V))
    (s : List Nat) (j : Nat) :
    presentAt (markStack trav values s) j ↔ presentAt values j := by
  rw [presentAt_iff_mem_ids, presentAt_iff_mem_ids, ids_markStack]

theorem findHeader_some {values : List (Node V)} {i : Nat} {n : Node V}
    (h : findHeader values i = some n) : n ∈ values ∧ n.id = i := by
  refine ⟨List.mem_of_find?_eq_some h, ?_⟩
  simpa using List.find?_some h

theorem findHeader_none_iff {values : List (Node V)} {i : Nat} :
    findHeader values i = none ↔ ¬ presentAt values i := by
  simp [findHeader, List.find?_eq_none, presentAt]

theorem presentAt_of_findHeader {values : List (Node V)} {i : Nat} {n : Node V}
    (h : findHeader values i = some n) : presentAt values i :=
  ⟨n, (findHeader_some h).1, (findHeader_some h).2⟩

theorem markedAt_setMarked_self {values : List (Node V)} {i : Nat}
    (hp : presentAt values i) : markedAt (setMarked values i) i := by
  obtain ⟨n, hn, hid⟩ := hp
  have hmem : (if (n.id == i : Bool) then ({ n with marked := true } : Node V) else n) ∈
      setMarked values i := List.mem_map_of_mem _ hn
  rw [if_pos (by simpa using hid)] at hmem
  exact ⟨{ n with marked := true }, hmem, by simpa using hid, rfl⟩

theorem markedAt_setMarked_cases {values : List (Node V)} {i j : Nat}
    (h : markedAt (setMarked values i) j) : markedAt values j ∨ j = i := by
  obtain ⟨n, hn, hid, hmk⟩ := h
  obtain ⟨m, hm, rfl⟩ := List.mem_map.mp hn
  by_cases hmi : m.id = i
  · right
    rw [← hid]
    simp [hmi]
  · left
    exact ⟨m, hm, by simpa [hmi] using hid, by simpa [hmi] using hmk⟩

theorem edge_of_markLe {trav : V → List Nat} {a b : List (Node V)}
    (h : List.Forall₂ MarkLe a b) {i j : Nat} (he : Edge trav a i j) :
    Edge trav b i j := by
  obtain ⟨n, hn, hid, hj⟩ := he
  obtain ⟨m, hm, hrel⟩ := forall₂_mem_left h hn
  exact ⟨m, hm, hrel.1 ▸ hid, hrel.2.2.1 ▸ hj⟩

theorem edge_of_markLe_rev {trav : V → List Nat} {a b : List (Node V)}
    (h : List.Forall₂ MarkLe a b) {i j : Nat} (he : Edge trav b i j) :
    Edge trav a i j := by
  obtain ⟨n, hn, hid, hj⟩ := he
  obtain ⟨m, hm, hrel⟩ := forall₂_mem_right h hn
  exact ⟨m, hm, hrel.1.trans hid, hrel.2.2.1 ▸ hj⟩

theorem reaches_of_markLe {trav : V → List Nat} {a b : List (Node V)}
    (h : List.Forall₂ MarkLe a b) {i j : Nat} (hr : Reaches trav a i j) :
    Reaches trav b i j :=
  Relation.ReflTransGen.mono (fun _ _ he => edge_of_markLe h he) hr

theorem reaches_of_markLe_rev {trav : V → List Nat} {a b : List (Node V)}
    (h : List.Forall₂ MarkLe a b) {i j : Nat} (hr : Reaches trav b i j) :
    Reaches trav a i j :=
  Relation.ReflTransGen.mono (fun _ _ he => edge_of_markLe_rev h he) hr

/-- Soundness of the mark phase: a block marked after the worklist runs was
already marked before, or is reachable from one of the worklist ids. -/
theorem markStack_marked_sound (trav : V → List Nat) (values : List (Node V))
    (s : List Nat) {j : Nat} (h : markedAt (markStack trav values s) j) :
    markedAt values j ∨ ∃ r ∈ s, Reaches trav values r j := by
  induction values, s using markStack.induct trav with
  | case1 values =>
    rw [markStack_nil] at h
    exact Or.inl h
  | case2 values i rest hf ih =>
    rw [markStack_cons_none trav values i rest hf] at h
    rcases ih h with h1 | ⟨r, hr, hrj⟩
    · exact Or.inl h1
    · exact Or.inr ⟨r, List.mem_cons_of_mem _ hr, hrj⟩
  | case3 values i rest n hf hm ih =>
    rw [markStack_cons_marked trav values i rest n hf hm] at h
    rcases ih h with h1 | ⟨r, hr, hrj⟩
    · exact Or.inl h1
    · exact Or.inr ⟨r, List.mem_cons_of_mem _ hr, hrj⟩
  | case4 values i rest n hf hm ih =>
    rw [markStack_cons_unmarked trav values i rest n hf (by simpa using hm)] at h
    have hle := markLe_setMarked values i
    rcases ih h with h1 | ⟨r, hr, hrj⟩
    · rcases markedAt_setMarked_cases h1 with h2 | rfl
      · exact Or.inl h2
      · exact Or.inr ⟨j, List.mem_cons_self j rest, Relation.ReflTransGen.refl⟩
    · have hrj2 : Reaches trav values r j := reaches_of_markLe_rev hle hrj
      rcases List.mem_append.mp hr with hr1 | hr2
      · have hn := findHeader_some hf
        have hedge : Edge trav values i r := ⟨n, hn.1, hn.2, hr1⟩
        exact Or.inr ⟨i, List.mem_cons_self i rest, Relation.ReflTransGen.head hedge hrj2⟩
      · exact Or.inr ⟨r, List.mem_cons_of_mem _ hr2, hrj2⟩

theorem nodup_id_eq {values : List (Node V)} (hnd : (ids values).Nodup)
    {a b : Node V} (ha : a ∈ values) (hb : b ∈ values) (hid : a.id = b.id) : a = b :=
  List.inj_on_of_nodup_map (by simpa [ids] using hnd) ha hb hid

/-- Completeness of the mark phase: provided ids are distinct and every
already-marked block has its present children marked or pending on the
worklist, the worklist run marks every present worklist id, and afterwards
every marked block has all its present children marked. -/
theorem markStack_complete (trav : V → List Nat) (values : List (Node V)) (s : List Nat)
    (hnd : (ids values).Nodup)
    (hinv : ∀ n ∈ values, n.marked = true → ∀ c ∈ trav n.value,
      presentAt values c → (markedAt values c ∨ c ∈ s)) :
    (∀ r ∈ s, presentAt values r → markedAt (markStack trav values s) r) ∧
    (∀ n ∈ markStack trav values s, n.marked = true → ∀ c ∈ trav n.value,
      presentAt (markStack trav values s) c → markedAt (markStack trav values s) c) := by
  induction values, s using markStack.induct trav with
  | case1 values =>
    rw [markStack_nil]
    refine ⟨by simp, fun n hn hm c hc hp => ?_⟩
    rcases hinv n hn hm c hc hp with h | h
    · exact h
    · cases h
  | case2 values i rest hf ih =>
    rw [markStack_cons_none trav values i rest hf]
    have hnp : ¬ presentAt values i := findHeader_none_iff.mp hf
    have hinv2 : ∀ n ∈ values, n.marked = true → ∀ c ∈ trav n.value,
        presentAt values c → (markedAt values c ∨ c ∈ rest) := by
      intro n hn hm c hc hp
      rcases hinv n hn hm c hc hp with h | h
      · exact Or.inl h
      · rcases List.mem_cons.mp h with rfl | h2
        · exact absurd hp hnp
        · exact Or.inr h2
    refine ⟨fun r hr hp => ?_, (ih hnd hinv2).2⟩
    rcases List.mem_cons.mp hr with rfl | h2
    · exact absurd hp hnp
    · exact (ih hnd hinv2).1 r h2 hp
  | case3 values i rest n hf hm ih =>
    rw [markStack_cons_marked trav values i rest n hf hm]
    have hmi : markedAt values i := ⟨n, (findHeader_some hf).1, (findHeader_some hf).2, hm⟩
    have hinv2 : ∀ m ∈ values, m.marked = true → ∀ c ∈ trav m.value,
        presentAt values c → (markedAt values c ∨ c ∈ rest) := by
      intro m hmem hmk c hc hp
      rcases hinv m hmem hmk c hc hp with h | h
      · exact Or.inl h
      · rcases List.mem_cons.mp h with rfl | h2
        · exact Or.inl hmi
        · exact Or.inr h2
    refine ⟨fun r hr hp => ?_, (ih hnd hinv2).2⟩
    rcases List.mem_cons.mp hr with rfl | h2
    · exact markedAt_of_markLe (markLe_markStack trav values rest) hmi
    · exact (ih hnd hinv2).1 r h2 hp
  | case4 values i rest n hf hm ih =>
    have hm2 : n.marked = false := by simpa using hm
    rw [markStack_cons_unmarked trav values i rest n hf hm2]
    obtain ⟨hnv, hni⟩ := findHeader_some hf
    have hp_i : presentAt values i := ⟨n, hnv, hni⟩
    have hnd2 : (ids (setMarked values i)).Nodup := by rw [ids_setMarked]; exact hnd
    have hmi : markedAt (setMarked values i) i := markedAt_setMarked_self hp_i
    have hinv2 : ∀ m ∈ setMarked values i, m.marked = true → ∀ c ∈ trav m.value,
        presentAt (setMarked values i) c →
          (markedAt (setMarked values i) c ∨ c ∈ trav n.value ++ rest) := by
      intro m hmem hmk c hc hp
      obtain ⟨m0, hm0, rfl⟩ := List.mem_map.mp hmem
      by_cases hid : m0.id = i
      · have : m0 = n := nodup_id_eq hnd hm0 hnv (hid.trans hni.symm)
        subst this
        have hval : (if (m0.id == i : Bool) then
            ({ m0 with marked := true } : Node V) else m0).value = m0.value := by
          by_cases h : (m0.id == i : Bool) = true <;> simp [h]
        rw [hval] at hc
        exact Or.inr (List.mem_append_left _ hc)
      · have hne : (m0.id == i : Bool) = false := by simpa using hid
        rw [if_neg (by simp [hne])] at hmk hc
        have hp0 : presentAt values c := (presentAt_setMarked_iff values i c).mp hp
        rcases hinv m0 hm0 hmk c hc hp0 with h | h
        · exact Or.inl (markedAt_of_markLe (markLe_setMarked values i) h)
        · rcases List.mem_cons.mp h with rfl | h2
          · exact Or.inl hmi
          · exact Or.inr (List.mem_append_right _ h2)
    have hIH := ih hnd2 hinv2
    refine ⟨fun r hr hp => ?_, hIH.2⟩
    rcases List.mem_cons.mp hr with rfl | h2
    · exact markedAt_of_markLe (markLe_markStack trav _ _) hmi
    · exact hIH.1 r (List.mem_append_right _ h2)
        ((presentAt_setMarked_iff values i r).mpr hp)

theorem reaches_src_present {trav : V → List Nat} {w : List (Node V)} {i j : Nat}
    (hij : Reaches trav w i j) (hj : presentAt w j) : presentAt w i := by
  rcases Relation.ReflTransGen.cases_head hij with rfl | ⟨c, hic, _⟩
  · exact hj
  · obtain ⟨n, hn, hid, _⟩ := hic
    exact ⟨n, hn, hid⟩

/-- A closed marked set absorbs reachability: if the marked blocks of `w`
have all their present children marked, then anything present and reachable
from a marked block is marked. -/
theorem marked_closed_reaches {trav : V → List Nat} {w : List (Node V)}
    (hnd : (ids w).Nodup)
    (hcl : ∀ n ∈ w, n.marked = true → ∀ c ∈ trav n.value,
      presentAt w c → markedAt w c)
    {i j : Nat} (hij : Reaches trav w i j) (hj : presentAt w j)
    (hi : markedAt w i) : markedAt w j := by
  revert hi
  induction hij using Relation.ReflTransGen.head_induction_on with
  | refl => exact fun h => h
  | head hac hcj ih =>
    intro ha
    apply ih
    obtain ⟨n, hn, hid, hcn⟩ := hac
    obtain ⟨m, hm, hmid, hmk⟩ := ha
    have hmn : m = n := nodup_id_eq hnd hm hn (hmid.trans hid.symm)
    subst hmn
    have hcp : presentAt w _ := reaches_src_present hcj hj
    exact hcl m hn hmk _ hcn hcp

theorem node_eq_of_fields {a b : Node V} (h1 : a.id = b.id)
    (h2 : a.value_size = b.value_size) (h3 : a.marked = b.marked)
    (h4 : a.value = b.value) : a = b := by
  cases a; cases b; simp_all

theorem collect_values_eq (trav : V → List Nat) (g : Gc_ V) (roots : List Nat) :
    (collect trav g roots).values =
      ((markStack trav g.values roots).filter (fun n => n.marked)).map
        (fun n => { n with marked := false }) := by
  simp [collect, sweep, foldl_mark, sweepScan_fst]

theorem collect_allocated_eq (trav : V → List Nat) (g : Gc_ V) (roots : List Nat) :
    (collect trav g roots).allocated_objects =
      g.allocated_objects - (sweepScan (markStack trav g.values roots)).2 := by
  simp [collect, sweep, foldl_mark]

theorem collect_limit_eq (trav : V → List Nat) (g : Gc_ V) (roots : List Nat) :
    (collect trav g roots).collect_limit = g.collect_limit := rfl

/-- The heart of collection correctness: starting from a list with distinct
ids and all mark flags clear, a block survives `collect` exactly when it is
reachable from some root; survivors are unchanged (flags still clear). -/
theorem collect_values_mem (trav : V → List Nat) (g : Gc_ V) (roots : List Nat)
    (hnd : (ids g.values).Nodup)
    (hum : ∀ n ∈ g.values, n.marked = false) (n : Node V) :
    n ∈ (collect trav g roots).values ↔
      (n ∈ g.values ∧ ∃ r ∈ roots, Reaches trav g.values r n.id) := by
  have hle := markLe_markStack trav g.values roots
  have hndA : (ids (markStack trav g.values roots)).Nodup := by
    rw [ids_markStack]; exact hnd
  have hvals := collect_values_eq trav g roots
  constructor
  · intro hmem
    rw [hvals] at hmem
    obtain ⟨m, hmf, rfl⟩ := List.mem_map.mp hmem
    obtain ⟨hmA, hmk⟩ := List.mem_filter.mp hmf
    obtain ⟨o, hoV, hrel⟩ := forall₂_mem_right hle hmA
    have heq : ({ m with marked := false } : Node V) = o :=
      node_eq_of_fields hrel.1.symm hrel.2.1.symm (by simp [hum o hoV])
        hrel.2.2.1.symm
    rw [heq]
    refine ⟨hoV, ?_⟩
    have hmarkedA : markedAt (markStack trav g.values roots) o.id :=
      ⟨m, hmA, hrel.1.symm, by simpa using hmk⟩
    rcases markStack_marked_sound trav g.values roots hmarkedA with hin | hreach
    · obtain ⟨x, hx, _, hxm⟩ := hin
      exact absurd hxm (by simp [hum x hx])
    · exact hreach
  · rintro ⟨hmemV, r, hr, hreach⟩
    have hinv : ∀ m ∈ g.values, m.marked = true → ∀ c ∈ trav m.value,
        presentAt g.values c → (markedAt g.values c ∨ c ∈ roots) := by
      intro m hm hmk
      exact absurd hmk (by simp [hum m hm])
    obtain ⟨hroots, hclosed⟩ := markStack_complete trav g.values roots hnd hinv
    have hpn : presentAt g.values n.id := ⟨n, hmemV, rfl⟩
    have hpr : presentAt g.values r := reaches_src_present hreach hpn
    have hmr : markedAt (markStack trav g.values roots) r := hroots r hr hpr
    have hreachA : Reaches trav (markStack trav g.values roots) r n.id :=
      reaches_of_markLe hle hreach
    have hpnA : presentAt (markStack trav g.values roots) n.id :=
      (presentAt_markStack_iff trav g.values roots n.id).mpr hpn
    have hmn : markedAt (markStack trav g.values roots) n.id :=
      marked_closed_reaches hndA hclosed hreachA hpnA hmr
    obtain ⟨m, hmA, hmid, hmk⟩ := hmn
    rw [hvals]
    refine List.mem_map.mpr ⟨m, List.mem_filter.mpr ⟨hmA, by simpa using hmk⟩, ?_⟩
    obtain ⟨o, hoV, hrel⟩ := forall₂_mem_right hle hmA
    have hon : o = n := nodup_id_eq hnd hoV hmemV (hrel.1.trans hmid)
    subst hon
    exact node_eq_of_fields (by simpa using hrel.1.symm) hrel.2.1.symm
      (by simp [hum o hoV]) hrel.2.2.1.symm

theorem Gc_eq_of_fields {a b : Gc_ V} (h1 : a.values = b.values)
    (h2 : a.allocated_objects = b.allocated_objects)
    (h3 : a.collect_limit = b.collect_limit) : a = b := by
  cases a; cases b; simp_all

theorem collect_values_unmarked (trav : V → List Nat) (g : Gc_ V) (roots : List Nat) :
    ∀ n ∈ (collect trav g roots).values, n.marked = false := by
  rw [collect_values_eq]
  intro n hn
  obtain ⟨m, _, rfl⟩ := List.mem_map.mp hn
  rfl

theorem collect_ids_nodup (trav : V → List Nat) (g : Gc_ V) (roots : List Nat)
    (hnd : (ids g.values).Nodup) : (ids (collect trav g roots).values).Nodup := by
  rw [collect_values_eq]
  have h1 : ids (((markStack trav g.values roots).filter (fun n => n.marked)).map
      (fun n => { n with marked := false })) =
      ids ((markStack trav g.values roots).filter (fun n => n.marked)) := by
    simp [ids, List.map_map, Function.comp]
  rw [h1]
  have hsub : List.Sublist
      (ids ((markStack trav g.values roots).filter (fun n => n.marked)))
      (ids (markStack trav g.values roots)) :=
    (List.filter_sublist _).map Node.id
  have hndA : (ids (markStack trav g.values roots)).Nodup := by
    rw [ids_markStack]; exact hnd
  exact hndA.sublist hsub

theorem reaches_collect_restrict (trav : V → List Nat) (g : Gc_ V) (roots : List Nat)
    (hnd : (ids g.values).Nodup) (hum : ∀ n ∈ g.values, n.marked = false)
    {i j : Nat} (hij : Reaches trav g.values i j)
    (hi : ∃ r ∈ roots, Reaches trav g.values r i) :
    Reaches trav (collect trav g roots).values i j := by
  revert hi
  induction hij using Relation.ReflTransGen.head_induction_on with
  | refl => exact fun _ => Relation.ReflTransGen.refl
  | head hac hcj ih =>
    intro hi
    obtain ⟨nd, hndm, hidn, hcn⟩ := hac
    obtain ⟨r, hr, hri⟩ := hi
    have hndS : nd ∈ (collect trav g roots).values :=
      (collect_values_mem trav g roots hnd hum nd).mpr
        ⟨hndm, r, hr, by rw [hidn]; exact hri⟩
    refine Relation.ReflTransGen.head ⟨nd, hndS, hidn, hcn⟩ (ih ?_)
    exact ⟨r, hr, hri.tail ⟨nd, hndm, hidn, hcn⟩⟩

theorem map_clear_of_markLe {a b : List (Node V)} (h : List.Forall₂ MarkLe a b)
    (hum : ∀ n ∈ a, n.marked = false) :
    b.map (fun n => ({ n with marked := false } : Node V)) = a := by
  induction h with
  | nil => rfl
  | cons hr ht ih =>
    simp only [List.map_cons]
    refine congrArg₂ List.cons ?_ (ih (fun n hn => hum n (List.mem_cons_of_mem _ hn)))
    exact node_eq_of_fields hr.1.symm hr.2.1.symm
      (by simp [hum _ (List.mem_cons_self _ _)]) hr.2.2.1.symm

/-- A collection whose roots reach every block in the list leaves the
collector state identical: every block is marked, sweep frees nothing and
clears the flags back. -/
theorem collect_of_all_reachable (trav : V → List Nat) (g : Gc_ V) (roots : List Nat)
    (hnd : (ids g.values).Nodup) (hum : ∀ n ∈ g.values, n.marked = false)
    (hreach : ∀ n ∈ g.values, ∃ r ∈ roots, Reaches trav g.values r n.id) :
    collect trav g roots = g := by
  have hle2 := markLe_markStack trav g.values roots
  have hnd2 : (ids (markStack trav g.values roots)).Nodup := by
    rw [ids_markStack]; exact hnd
  have hinv1 : ∀ m ∈ g.values, m.marked = true → ∀ c ∈ trav m.value,
      presentAt g.values c → (markedAt g.values c ∨ c ∈ roots) := by
    intro m hm hmk
    exact absurd hmk (by simp [hum m hm])
  obtain ⟨hroots1, hclosed1⟩ := markStack_complete trav g.values roots hnd hinv1
  have hallmarked : ∀ m ∈ markStack trav g.values roots, m.marked = true := by
    intro m hm
    obtain ⟨o, hoV, hrel⟩ := forall₂_mem_right hle2 hm
    obtain ⟨r, hr, hrch⟩ := hreach o hoV
    have hpo : presentAt g.values o.id := ⟨o, hoV, rfl⟩
    have hpr : presentAt g.values r := reaches_src_present hrch hpo
    have hmr : markedAt (markStack trav g.values roots) r := hroots1 r hr hpr
    have hmo : markedAt (markStack trav g.values roots) o.id :=
      marked_closed_reaches hnd2 hclosed1 (reaches_of_markLe hle2 hrch)
        ((presentAt_markStack_iff trav g.values roots o.id).mpr hpo) hmr
    obtain ⟨m2, hm2A, hm2id, hm2k⟩ := hmo
    have hm2m : m2 = m := nodup_id_eq hnd2 hm2A hm (hm2id.trans hrel.1)
    rw [← hm2m]
    exact hm2k
  have hfilter : (markStack trav g.values roots).filter (fun n => n.marked) =
      markStack trav g.values roots :=
    List.filter_eq_self.mpr (fun a ha => by simp [hallmarked a ha])
  have hvals2 : (collect trav g roots).values = g.values := by
    rw [collect_values_eq, hfilter, map_clear_of_markLe hle2 hum]
  have hcount2 : (sweepScan (markStack trav g.values roots)).2 = 0 := by
    rw [sweepScan_snd]
    have : (markStack trav g.values roots).filter (fun n => !n.marked) = [] := by
      rw [List.filter_eq_nil]
      intro a ha
      simp [hallmarked a ha]
    rw [this]
    rfl
  have hall : (collect trav g roots).allocated_objects = g.allocated_objects := by
    rw [collect_allocated_eq, hcount2]
    exact Nat.sub_zero _
  exact Gc_eq_of_fields hvals2 hall (collect_limit_eq trav g roots)

/-- Running `collect` again right away, with the same roots, reclaims
nothing and leaves the collector state identical. -/
theorem collect_collect (trav : V → List Nat) (g : Gc_ V) (roots : List Nat)
    (hnd : (ids g.values).Nodup) (hum : ∀ n ∈ g.values, n.marked = false) :
    collect trav (collect trav g roots) roots = collect trav g roots := by
  have hnd1 : (ids (collect trav g roots).values).Nodup :=
    collect_ids_nodup trav g roots hnd
  have hum1 : ∀ n ∈ (collect trav g roots).values, n.marked = false :=
    collect_values_unmarked trav g roots
  have hreach1 : ∀ n ∈ (collect trav g roots).values,
      ∃ r ∈ roots, Reaches trav (collect trav g roots).values r n.id := by
    intro n hn
    obtain ⟨hnV, r, hr, hrch⟩ := (collect_values_mem trav g roots hnd hum n).mp hn
    exact ⟨r, hr, reaches_collect_restrict trav g roots hnd hum hrch
      ⟨r, hr, Relation.ReflTransGen.refl⟩⟩
  exact collect_of_all_reachable trav (collect trav g roots) roots hnd1 hum1 hreach1

theorem findHeader_nil (i : Nat) : findHeader ([] : List (Node V)) i = none := rfl

theorem setMarked_nil (i : Nat) : setMarked ([] : List (Node V)) i = [] := rfl

theorem length_markStack (trav : V → List Nat) (values : List (Node V)) (s : List Nat) :
    (markStack trav values s).length = values.length := by
  have h1 : (ids (markStack trav values s)).length = (ids values).length := by
    rw [ids_markStack]
  simpa [ids] using h1

theorem markStackT_nil (trav : V → List Nat) (values : List (Node V)) :
    markStackT trav values [] = (values, []) := by
  rw [markStackT.eq_def]

theorem markStackT_cons_none (trav : V → List Nat) (values : List (Node V))
    (i : Nat) (rest : List Nat) (h : findHeader values i = none) :
    markStackT trav values (i :: rest) = markStackT trav values rest := by
  rw [markStackT.eq_def]
  repeat' split
  all_goals simp_all

theorem markStackT_cons_marked (trav : V → List Nat) (values : List (Node V))
    (i : Nat) (rest : List Nat) (n : Node V) (h : findHeader values i = some n)
    (hm : n.marked = true) :
    markStackT trav values (i :: rest) = markStackT trav values rest := by
  rw [markStackT.eq_def]
  repeat' split
  all_goals simp_all

theorem markStackT_cons_unmarked (trav : V → List Nat) (values : List (Node V))
    (i : Nat) (rest : List Nat) (n : Node V) (h : findHeader values i = some n)
    (hm : n.marked = false) :
    markStackT trav values (i :: rest) =
      ((markStackT trav (setMarked values i) (trav n.value ++ rest)).1,
        i :: (markStackT trav (setMarked values i) (trav n.value ++ rest)).2) := by
  rw [markStackT.eq_def]
  repeat' split
  all_goals simp_all

/-- Every id on the newly-marked trace was unmarked when the run started, and
no id is marked twice: each block is visited at most once per collection. -/
theorem markStackT_trace_nodup (trav : V → List Nat) (values : List (Node V))
    (s : List Nat) (hnd : (ids values).Nodup) :
    (∀ k ∈ (markStackT trav values s).2, ¬ markedAt values k) ∧
      (markStackT trav values s).2.Nodup := by
  induction values, s using markStackT.induct trav with
  | case1 values =>
    rw [markStackT_nil]
    simp
  | case2 values i rest h ih =>
    rw [markStackT_cons_none trav values i rest h]
    exact ih hnd
  | case3 values i rest n h hm ih =>
    rw [markStackT_cons_marked trav values i rest n h hm]
    exact ih hnd
  | case4 values i rest n h hm ih =>
    have hm2 : n.marked = false := by simpa using hm
    rw [markStackT_cons_unmarked trav values i rest n h hm2]
    obtain ⟨hnv, hni⟩ := findHeader_some h
    have hnd2 : (ids (setMarked values i)).Nodup := by
      rw [ids_setMarked]; exact hnd
    obtain ⟨ihUm, ihNd⟩ := ih hnd2
    have hmi : markedAt (setMarked values i) i :=
      markedAt_setMarked_self ⟨n, hnv, hni⟩
    have hiNotIn : i ∉ (markStackT trav (setMarked values i) (trav n.value ++ rest)).2 :=
      fun hin => ihUm i hin hmi
    refine ⟨?_, List.nodup_cons.mpr ⟨hiNotIn, ihNd⟩⟩
    intro k hk
    rcases List.mem_cons.mp hk with rfl | hk2
    · intro hmk
      obtain ⟨m, hmV, hmid, hmkd⟩ := hmk
      have : m = n := nodup_id_eq hnd hmV hnv (hmid.trans hni.symm)
      subst this
      rw [hm2] at hmkd
      cases hmkd
    · intro hmk
      exact ihUm k hk2 (markedAt_of_markLe (markLe_setMarked values i) hmk)

/-- Arithmetic specification of `value_offset`: for a positive alignment the
offset is the smallest multiple of the alignment that is at least the header
size, so an aligned header address plus the offset is still aligned. -/
theorem value_offset_spec (hs ma : Nat) (hma : 0 < ma) :
    ma ∣ value_offset hs ma ∧ hs ≤ value_offset hs ma ∧
      value_offset hs ma < hs + ma ∧
      ∀ addr : Nat, ma ∣ addr → ma ∣ (addr + value_offset hs ma) := by
  have hmodlt : (ma - hs % ma) % ma < ma := Nat.mod_lt _ hma
  have hdvd : ma ∣ value_offset hs ma := by
    rcases Nat.eq_zero_or_pos (hs % ma) with hr | hr
    · have h1 : value_offset hs ma = hs := by
        simp [value_offset, hr]
      rw [h1]
      exact Nat.dvd_of_mod_eq_zero hr
    · have hrlt : hs % ma < ma := Nat.mod_lt _ hma
      have h2 : (ma - hs % ma) % ma = ma - hs % ma :=
        Nat.mod_eq_of_lt (by omega)
      have hq := Nat.div_add_mod hs ma
      refine ⟨hs / ma + 1, ?_⟩
      rw [value_offset, h2]
      calc hs + (ma - hs % ma)
          = (ma * (hs / ma) + hs % ma) + (ma - hs % ma) := by rw [hq]
        _ = ma * (hs / ma) + (hs % ma + (ma - hs % ma)) := by
            rw [Nat.add_assoc]
        _ = ma * (hs / ma) + ma := by rw [Nat.add_sub_cancel' (Nat.le_of_lt hrlt)]
        _ = ma * (hs / ma + 1) := by rw [Nat.mul_succ]
  refine ⟨hdvd, Nat.le_add_right _ _, by rw [value_offset]; omega, ?_⟩
  intro addr haddr
  exact Nat.dvd_add haddr hdvd

end Lemmas

section Claims

variable {V : Type}

/-- C8: `new()` returns an empty collector: the allocation list is empty,
`allocated_objects` is 0, and `collect_limit` defaults to 100. -/
theorem claim_C8_new_empty_collector (V : Type) :
    (new V).values = [] ∧ (new V).allocated_objects = 0 ∧
      (new V).collect_limit = 100 :=
  ⟨rfl, rfl, rfl⟩

/-- C4: `alloc(value)` creates a new block whose header has `next` equal to
the previous list head (the new block is consed in front of the old list),
the given payload size, and `marked = false`; the value sits in the payload;
the new header becomes the list head; `allocated_objects` goes up by one;
and the returned handle is the payload's address. -/
theorem claim_C4_alloc_pushes_fresh_head (g : Gc_ V) (id sz : Nat) (v : V) :
    (alloc g id sz v).1.values =
      { id := id, value_size := sz, marked := false, value := v } :: g.values ∧
    (alloc g id sz v).1.allocated_objects = g.allocated_objects + 1 ∧
    (alloc g id sz v).1.collect_limit = g.collect_limit ∧
    (alloc g id sz v).2 = id :=
  ⟨rfl, rfl, rfl, rfl⟩

/-- C5: `alloc_and_collect(roots, value)` runs a full collection before
allocating exactly when `allocated_objects >= collect_limit`, and otherwise
just allocates; in either case exactly one `alloc` happens, after the (at
most one) collection. -/
theorem claim_C5_alloc_and_collect_threshold (trav : V → List Nat) (g : Gc_ V)
    (roots : List Nat) (id sz : Nat) (v : V) :
    (g.allocated_objects ≥ g.collect_limit →
      alloc_and_collect trav g roots id sz v = alloc (collect trav g roots) id sz v) ∧
    (g.allocated_objects < g.collect_limit →
      alloc_and_collect trav g roots id sz v = alloc g id sz v) := by
  constructor
  · intro h
    simp [alloc_and_collect, h]
  · intro h
    simp [alloc_and_collect, Nat.not_le.mpr h]

/-- C5 witness: a fresh collector is below its threshold, so
`alloc_and_collect` just allocates. -/
theorem claim_C5_witness :
    alloc_and_collect exTrav (new (List Nat)) [] 0 8 [] =
      alloc (new (List Nat)) 0 8 [] :=
  (claim_C5_alloc_and_collect_threshold exTrav (new (List Nat)) [] 0 8 []).2
    (by decide)

/-- C10: `sweep()` preserves the relative order of survivors: the list after
the pass is exactly the subsequence of marked nodes, in their original
order, with the mark flags cleared. -/
theorem claim_C10_sweep_keeps_marked_in_order (V : Type) :
    (∀ l : List (Node V), (sweepScan l).1 =
      (l.filter (fun n => n.marked)).map (fun n => { n with marked := false })) ∧
    (∀ g : Gc_ V, (sweep g).values =
      (g.values.filter (fun n => n.marked)).map
        (fun n => { n with marked := false })) :=
  ⟨fun l => sweepScan_fst l, fun g => sweepScan_fst g.values⟩

/-- C2: the sweep pass, run as the source's cursor loop, visits each node of
the list exactly once in list order (even across consecutive removals),
unlinks and frees each unmarked node (counting one decrement per free),
clears and keeps each marked node, and stops at the end of the list. -/
theorem claim_C2_sweep_single_pass (V : Type) :
    (∀ l : List (Node V),
      sweepIter ([] : List (Node V)) l 0 [] =
        ((sweepScan l).1, (sweepScan l).2, l.map Node.id)) ∧
    (∀ (n : Node V) (rest : List (Node V)), n.marked = false →
      sweepScan (n :: rest) = ((sweepScan rest).1, (sweepScan rest).2 + 1)) ∧
    (∀ (n : Node V) (rest : List (Node V)), n.marked = true →
      sweepScan (n :: rest) =
        (({ n with marked := false } : Node V) :: (sweepScan rest).1,
          (sweepScan rest).2)) ∧
    (sweepScan ([] : List (Node V)) = ([], 0)) := by
  refine ⟨fun l => ?_, fun n rest h => ?_, fun n rest h => ?_, rfl⟩
  · rw [sweepIter_spec]
    simp
  · simp [sweepScan, h]
  · simp [sweepScan, h]

/-- C2 witness: sweeping a one-node list with the node unmarked frees it. -/
theorem claim_C2_witness :
    sweepScan [exA] =
      ((sweepScan ([] : List (Node (List Nat)))).1,
        (sweepScan ([] : List (Node (List Nat)))).2 + 1) :=
  (claim_C2_sweep_single_pass (List Nat)).2.1 exA [] rfl

/-- C7: `value_offset()` is the header size rounded up to the platform's
maximum primitive alignment: for any positive alignment the offset is a
multiple of the alignment, lies in `[hs, hs + ma)`, and added to any aligned
header address yields an aligned payload address. -/
theorem claim_C7_value_offset_aligned (hs ma : Nat) (hma : 0 < ma) :
    ma ∣ value_offset hs ma ∧ hs ≤ value_offset hs ma ∧
      value_offset hs ma < hs + ma ∧
      ∀ addr : Nat, ma ∣ addr → ma ∣ (addr + value_offset hs ma) :=
  value_offset_spec hs ma hma

/-- C7 witness: with a 24-byte header and 8-byte maximum alignment the
payload offset is the aligned value 24. -/
theorem claim_C7_witness :
    (8 ∣ value_offset 24 8) ∧ value_offset 24 8 < 24 + 8 :=
  ⟨(claim_C7_value_offset_aligned 24 8 (by decide)).1,
    (claim_C7_value_offset_aligned 24 8 (by decide)).2.2.1⟩

/-- C9: `allocated_objects` always equals the number of headers in the
allocation list: it starts at 0 on `new`, `alloc` adds one as it links one
header, `sweep` subtracts one per header freed, and `collect` and
`alloc_and_collect` preserve the correspondence. -/
theorem claim_C9_counter_tracks_length (trav : V → List Nat) :
    ((new V).allocated_objects = (new V).values.length) ∧
    (∀ (g : Gc_ V) (id sz : Nat) (v : V),
      g.allocated_objects = g.values.length →
      (alloc g id sz v).1.allocated_objects = (alloc g id sz v).1.values.length) ∧
    (∀ g : Gc_ V, g.allocated_objects = g.values.length →
      (sweep g).allocated_objects = (sweep g).values.length) ∧
    (∀ (g : Gc_ V) (roots : List Nat),
      g.allocated_objects = g.values.length →
      (collect trav g roots).allocated_objects =
        (collect trav g roots).values.length) ∧
    (∀ (g : Gc_ V) (roots : List Nat) (id sz : Nat) (v : V),
      g.allocated_objects = g.values.length →
      (alloc_and_collect trav g roots id sz v).1.allocated_objects =
        (alloc_and_collect trav g roots id sz v).1.values.length) := by
  have hsweep : ∀ g : Gc_ V, g.allocated_objects = g.values.length →
      (sweep g).allocated_objects = (sweep g).values.length := by
    intro g h
    have hlen := sweepScan_length g.values
    simp only [sweep]
    omega
  have halloc : ∀ (g : Gc_ V) (id sz : Nat) (v : V),
      g.allocated_objects = g.values.length →
      (alloc g id sz v).1.allocated_objects = (alloc g id sz v).1.values.length := by
    intro g id sz v h
    simp [alloc, h]
  have hcollect : ∀ (g : Gc_ V) (roots : List Nat),
      g.allocated_objects = g.values.length →
      (collect trav g roots).allocated_objects =
        (collect trav g roots).values.length := by
    intro g roots h
    have h1 : collect trav g roots =
        sweep { g with values := markStack trav g.values roots } := by
      simp only [collect, foldl_mark]
    rw [h1]
    apply hsweep
    simpa [length_markStack] using h
  refine ⟨rfl, halloc, hsweep, hcollect, ?_⟩
  intro g roots id sz v h
  by_cases hc : g.allocated_objects ≥ g.collect_limit
  · simp only [alloc_and_collect, if_pos hc]
    exact halloc _ id sz v (hcollect g roots h)
  · simp only [alloc_and_collect, if_neg hc]
    exact halloc g id sz v h

/-- C9 witness: the invariant holds across an `alloc` on a fresh collector. -/
theorem claim_C9_witness :
    (alloc (new (List Nat)) 0 8 []).1.allocated_objects =
      (alloc (new (List Nat)) 0 8 []).1.values.length :=
  (claim_C9_counter_tracks_length exTrav).2.1 (new (List Nat)) 0 8 [] rfl

/-- C3: `mark` returns immediately when the header is already marked (cycle
termination and shared-reference dedup); the worklist with trace computes the
same marking and its newly-marked trace has no duplicates — each reachable
block is marked at most once per collection; marking the two-block reference
cycle rooted at one end terminates and leaves both blocks live. -/
theorem claim_C3_mark_once_and_terminates :
    (∀ (W : Type) (trav : W → List Nat) (values : List (Node W)) (i : Nat)
      (rest : List Nat) (n : Node W), findHeader values i = some n →
      n.marked = true →
      markStack trav values (i :: rest) = markStack trav values rest) ∧
    (∀ (W : Type) (trav : W → List Nat) (values : List (Node W)) (s : List Nat),
      (markStackT trav values s).1 = markStack trav values s) ∧
    (∀ (W : Type) (trav : W → List Nat) (values : List (Node W)) (s : List Nat),
      (ids values).Nodup →
      ((markStackT trav values s).2.Nodup ∧
        ∀ k ∈ (markStackT trav values s).2, ¬ markedAt values k)) ∧
    (collect exTrav exGc [0] = exGc ∧ exGc.allocated_objects = 2) := by
  refine ⟨?_, ?_, ?_, ?_, rfl⟩
  · exact fun W travx vx ix rx nx h hm => markStack_cons_marked travx vx ix rx nx h hm
  · exact fun W travx vx sx => markStackT_fst travx vx sx
  · intro W travx vx sx hnd
    obtain ⟨h1, h2⟩ := markStackT_trace_nodup travx vx sx hnd
    exact ⟨h2, h1⟩
  · simp [collect, foldl_mark, mark, markStack_cons, markStack_nil, findHeader_cons,
      findHeader_nil, setMarked_cons, setMarked_nil, sweepScan, sweep, exTrav, exA,
      exB, exGc]

/-- C3 witness: marking an already-marked one-block list returns at once. -/
theorem claim_C3_witness :
    markStack exTrav
        [({ id := 0, value_size := 8, marked := true, value := [1] } : Node (List Nat))]
        [0] =
      markStack exTrav
        [({ id := 0, value_size := 8, marked := true, value := [1] } : Node (List Nat))]
        [] :=
  claim_C3_mark_once_and_terminates.1 (List Nat) exTrav _ 0 [] _ rfl rfl

/-- C6: mark flags are clear at the start of every mark phase: sweep leaves
every survivor unmarked (so a full `collect` does too), `alloc` links the new
block unmarked, and repeating a collection immediately with the same roots
reclaims nothing — the state is unchanged. -/
theorem claim_C6_flags_clear_between_collections (trav : V → List Nat) :
    (∀ g : Gc_ V, ∀ n ∈ (sweep g).values, n.marked = false) ∧
    (∀ (g : Gc_ V) (roots : List Nat),
      ∀ n ∈ (collect trav g roots).values, n.marked = false) ∧
    (∀ (g : Gc_ V) (id sz : Nat) (v : V),
      (∀ n ∈ g.values, n.marked = false) →
      ∀ n ∈ (alloc g id sz v).1.values, n.marked = false) ∧
    (∀ (g : Gc_ V) (roots : List Nat), (ids g.values).Nodup →
      (∀ n ∈ g.values, n.marked = false) →
      collect trav (collect trav g roots) roots = collect trav g roots) := by
  refine ⟨?_, ?_, ?_, ?_⟩
  · intro g n hn
    simp only [sweep] at hn
    rw [sweepScan_fst] at hn
    obtain ⟨m, _, rfl⟩ := List.mem_map.mp hn
    rfl
  · intro g roots
    exact collect_values_unmarked trav g roots
  · intro g id sz v h n hn
    rcases List.mem_cons.mp hn with rfl | hn2
    · rfl
    · exact h n hn2
  · intro g roots hnd hum
    exact collect_collect trav g roots hnd hum

/-- C6 witness: collecting the rooted two-block cycle twice equals
collecting it once. -/
theorem claim_C6_witness :
    collect exTrav (collect exTrav exGc [0]) [0] = collect exTrav exGc [0] :=
  (claim_C6_flags_clear_between_collections exTrav).2.2.2 exGc [0]
    (by decide) (by decide)

/-- C1: `collect(roots)` runs mark then sweep and reclaims exactly the
blocks unreachable from the roots: a block survives iff it is reachable from
some root; rooting every block preserves the whole state (live count stays
N), and collecting with no roots empties the list and zeroes the live
count. -/
theorem claim_C1_collect_reclaims_exactly_unreachable (trav : V → List Nat)
    (g : Gc_ V) (roots : List Nat) (hnd : (ids g.values).Nodup)
    (hum : ∀ n ∈ g.values, n.marked = false)
    (hcount : g.allocated_objects = g.values.length) :
    (collect trav g roots =
      sweep { g with values := markStack trav g.values roots }) ∧
    (∀ n : Node V, n ∈ (collect trav g roots).values ↔
      (n ∈ g.values ∧ ∃ r ∈ roots, Reaches trav g.values r n.id)) ∧
    ((∀ n ∈ g.values, n.id ∈ roots) → collect trav g roots = g) ∧
    ((collect trav g []).values = [] ∧
      (collect trav g []).allocated_objects = 0) := by
  refine ⟨by simp only [collect, foldl_mark],
    collect_values_mem trav g roots hnd hum, ?_, ?_, ?_⟩
  · intro hcov
    exact collect_of_all_reachable trav g roots hnd hum
      (fun n hn => ⟨n.id, hcov n hn, Relation.ReflTransGen.refl⟩)
  · rw [collect_values_eq, markStack_nil]
    have hfil : g.values.filter (fun n => n.marked) = [] := by
      rw [List.filter_eq_nil]
      intro a ha
      simp [hum a ha]
    rw [hfil]
    rfl
  · rw [collect_allocated_eq, markStack_nil, sweepScan_snd]
    have hfil : g.values.filter (fun n => !n.marked) = g.values :=
      List.filter_eq_self.mpr (fun a ha => by simp [hum a ha])
    rw [hfil, hcount]
    exact Nat.sub_self _

/-- C1 witness: in the rooted two-block cycle, block A survives collection
and the characterization instantiates concretely. -/
theorem claim_C1_witness :
    exA ∈ (collect exTrav exGc [0]).values ↔
      (exA ∈ exGc.values ∧
        ∃ r ∈ ([0] : List Nat), Reaches exTrav exGc.values r exA.id) :=
  (claim_C1_collect_reclaims_exactly_unreachable exTrav exGc [0]
    (by decide) (by decide) (by decide)).2.1 exA

end Claims

end GcModel
